import Mathlib

/-!
Verification of the completion-detection core of a tmux wrapper CLI
(src/tmux_wrapper.py).  Strings are modelled as lists of characters;
the polling loop is modelled as an explicit step function over a
per-call state record, driven by an environment that gives, for each
tick, the elapsed wall-clock time, the liveness answer of the
session probe, and the text returned by the single pane capture that
the iteration performs.
-/

namespace TmuxWrapper

/-- The escape-introducer byte 0x1B. -/
def escChar : Char := Char.ofNat 27

/-- Character class of the regex piece matching the byte after the
introducer: the range 0x40 to 0x5F. -/
def isIntroByte (c : Char) : Bool := 0x40 ≤ c.toNat && c.toNat ≤ 0x5F

/-- Character class of the parameter-byte range 0x30 to 0x3F. -/
def isParamByte (c : Char) : Bool := 0x30 ≤ c.toNat && c.toNat ≤ 0x3F

/-- Character class of the intermediate-byte range 0x20 to 0x2F. -/
def isInterByte (c : Char) : Bool := 0x20 ≤ c.toNat && c.toNat ≤ 0x2F

/-- Character class of the final-byte range 0x40 to 0x7E. -/
def isFinalByte (c : Char) : Bool := 0x40 ≤ c.toNat && c.toNat ≤ 0x7E

/-- Attempt to match, at the start of the given text, the remainder of
the pattern of ANSI_ESCAPE_PATTERN after its leading 0x1B: one byte in
0x40-0x5F, a maximal run of 0x30-0x3F, a maximal run of 0x20-0x2F and a
single byte in 0x40-0x7E.  The three classes after the runs are
pairwise disjoint from the run classes, so greedy matching needs no
backtracking and the maximal-munch reading is exact.  Returns the text
after the match, or none when no match starts here. -/
def tryMatchEscape : List Char → Option (List Char)
  | [] => none
  | d :: t =>
    if isIntroByte d then
      match (t.dropWhile isParamByte).dropWhile isInterByte with
      | [] => none
      | f :: r => if isFinalByte f then some r else none
    else none

/-- Fuel-indexed scanner behind strip_ansi_escape_sequences.  It walks
the text left to right exactly as re.sub does: at an 0x1B byte it tries
to match the rest of the escape pattern, deleting the match and
resuming after it on success, and keeping the byte on failure; every
other byte is kept.  One unit of fuel is spent per examined head
character, so fuel equal to the length of the text is always enough. -/
def stripAux : Nat → List Char → List Char
  | _, [] => []
  | 0, s => s
  | fuel + 1, c :: rest =>
    if c = escChar then
      match tryMatchEscape rest with
      | some rest2 => stripAux fuel rest2
      | none => c :: stripAux fuel rest
    else c :: stripAux fuel rest

/-- ANSI_ESCAPE_PATTERN.sub applied to the text: remove every
non-overlapping match of the escape-sequence pattern in one
left-to-right pass. -/
def strip_ansi_escape_sequences (s : List Char) : List Char :=
  stripAux s.length s

/-- The whitespace class stripped by the str.strip calls of the code
(the ASCII whitespace characters). -/
def isPySpace (c : Char) : Bool :=
  c = ' ' || c = '\t' || c = '\n' || c = '\r' || c = Char.ofNat 11 || c = Char.ofNat 12

/-- str.strip: drop whitespace from both ends. -/
def pyStrip (s : List Char) : List Char :=
  ((s.dropWhile isPySpace).reverse.dropWhile isPySpace).reverse

/-- str.rstrip: drop whitespace from the right end only. -/
def pyRStrip (s : List Char) : List Char :=
  (s.reverse.dropWhile isPySpace).reverse

/-- str.split on a newline: the list of segments between newline
characters; the empty text yields one empty segment. -/
def splitLines : List Char → List (List Char)
  | [] => [[]]
  | c :: rest =>
    if c = '\n' then [] :: splitLines rest
    else
      match splitLines rest with
      | [] => [[c]]
      | l :: ls => (c :: l) :: ls

/-- The str.join of a list of lines with a newline separator. -/
def joinLines : List (List Char) → List Char
  | [] => []
  | [l] => l
  | l :: ls => l ++ '\n' :: joinLines ls

/-- The Python substring test needle in hay. -/
def containsSub (needle : List Char) : List Char → Bool
  | [] => needle.isEmpty
  | c :: rest => needle.isPrefixOf (c :: rest) || containsSub needle rest

/-- The backward index scan of _trim_output_to_command: find the last
line containing the command and return that line together with every
later line, or none when no line contains it.  Recursion checks the
later lines first, so the last occurrence wins. -/
def trimScan (cmd : List Char) : List (List Char) → Option (List (List Char))
  | [] => none
  | l :: ls =>
    match trimScan cmd ls with
    | some r => some r
    | none => if containsSub cmd l then some (l :: ls) else none

/-- _trim_output_to_command: trim the output to start at the last line
containing the command; return the output unchanged when the command is
absent, None or empty, or when the output is empty. -/
def _trim_output_to_command (output : List Char) (command : Option (List Char)) : List Char :=
  match command with
  | none => output
  | some cmd =>
    if cmd.isEmpty || output.isEmpty then output
    else
      match trimScan cmd (splitLines output) with
      | some seg => joinLines seg
      | none => output

/-- The fixed ordered prompt pattern list of wait_for_output_completion. -/
def prompt_patterns : List (List Char) :=
  [("pry(main)>").toList, ("]$").toList, ("]#").toList, ("#").toList, ("$").toList]

/-- The pattern loop of the poller: the first pattern, in list order,
that the cleaned last line ends with. -/
def firstPromptMatch (clean : List Char) : Option (List Char) :=
  prompt_patterns.find? (fun p => p.isSuffixOf clean)

/-- The last-line extraction of the poller: strip the trimmed output at
both ends, and if something remains take the last segment of its
newline split, again stripped at both ends; an all-whitespace trimmed
output yields the empty line. -/
def lastLine (trimmed : List Char) : List Char :=
  let s := pyStrip trimmed
  if s.isEmpty then [] else pyStrip ((splitLines s).getLastD [])

/-- The whole prompt test of one poll iteration: sanitize the extracted
last line and ask whether some pattern matches. -/
def promptCheckLine (trimmed : List Char) : Bool :=
  (firstPromptMatch (strip_ansi_escape_sequences (lastLine trimmed))).isSome

/-- The line the specification text says is tested: the last segment of
the newline split of the trimmed capture, stripped of trailing
whitespace.  This definition follows the words of the specification,
for comparison against the pipeline the code implements. -/
def specLastLineTested (trimmed : List Char) : List Char :=
  pyRStrip ((splitLines trimmed).getLastD [])

/-- Outcome of one run of the external capture invocation.  With the
options the code passes, the invocation either completes, with some
standard output text and some return code, or hits the 5 second
timeout; a CalledProcessError is never raised because the invocation is
not asked to check the return code, so that handler is dead. -/
inductive CaptureInvocation where
  | completed (stdout : List Char) (returncode : Int)
  | timedOut
deriving DecidableEq

/-- capture_tmux_output: the text the function returns for each outcome
of the external invocation.  A timeout degrades to the empty string; a
completed invocation returns its standard output unchanged, whatever
its return code. -/
def capture_tmux_output : CaptureInvocation → List Char
  | .completed out _ => out
  | .timedOut => []

/-- The per-call mutable record of wait_for_output_completion. -/
structure PollState where
  last_output : List Char
  output_changed : Bool
  command_seen : Bool
deriving DecidableEq

/-- The per-call parameters of wait_for_output_completion. -/
structure PollConfig where
  command_sent : Option (List Char)
  max_wait_sec : Nat
deriving DecidableEq

/-- The environment a poll call observes, indexed by tick: the elapsed
time read at the top of the iteration, the liveness answer of the
session probe, and the text returned by the single pane capture the
iteration performs.  init_capture is the capture taken before the loop
when no pre-command output is supplied. -/
structure Env where
  elapsed : Nat → Nat
  session_alive : Nat → Bool
  capture : Nat → List Char
  init_capture : List Char

/-- The truthiness-guarded membership test of the code: a command that
is present (not None), non-empty and contained in the text. -/
def cmdVisible : Option (List Char) → List Char → Bool
  | none, _ => false
  | some c, out => !c.isEmpty && containsSub c out

/-- The two latch updates and the last-output update of one iteration,
applied to the freshly captured text. -/
def updatedState (st : PollState) (cfg : PollConfig) (cur : List Char) : PollState :=
  let cs := st.command_seen || cmdVisible cfg.command_sent cur
  if cur = st.last_output then
    { last_output := st.last_output, output_changed := st.output_changed, command_seen := cs }
  else
    { last_output := cur, output_changed := true, command_seen := cs }

/-- One iteration of the polling loop: the timeout check, then the
liveness check, then the capture, the latch updates and the guarded
prompt check.  An inl value is the returned triple (final output,
timed out flag, session exited flag); an inr value is the state carried
to the next tick. -/
def pollStep (env : Env) (cfg : PollConfig) (t : Nat) (st : PollState) :
    Sum (List Char × Bool × Bool) PollState :=
  if env.elapsed t > cfg.max_wait_sec then
    Sum.inl (_trim_output_to_command (env.capture t) cfg.command_sent, true, false)
  else if env.session_alive t = false then
    Sum.inl (_trim_output_to_command (env.capture t) cfg.command_sent, false, true)
  else if ((updatedState st cfg (env.capture t)).output_changed ||
      (updatedState st cfg (env.capture t)).command_seen) &&
      !(_trim_output_to_command (env.capture t) cfg.command_sent).isEmpty then
    if promptCheckLine (_trim_output_to_command (env.capture t) cfg.command_sent) then
      Sum.inl (_trim_output_to_command (env.capture t) cfg.command_sent, false, false)
    else Sum.inr (updatedState st cfg (env.capture t))
  else Sum.inr (updatedState st cfg (env.capture t))

/-- The initial state of a poll call: the baseline is the pre-command
output when supplied, else the initial capture; output_changed starts
true exactly when no baseline was supplied; command_seen starts true
when the sent text is already visible in the baseline. -/
def initState (env : Env) (cfg : PollConfig) (pre : Option (List Char)) : PollState :=
  let initial := match pre with | some p => p | none => env.init_capture
  { last_output := initial
    output_changed := pre.isNone
    command_seen := cmdVisible cfg.command_sent initial }

/-- Fuel-bounded unfolding of the polling loop from a given tick and
state; none means the loop was still running when the fuel ran out. -/
def pollRun (env : Env) (cfg : PollConfig) : Nat → Nat → PollState → Option (List Char × Bool × Bool)
  | 0, _, _ => none
  | fuel + 1, t, st =>
    match pollStep env cfg t st with
    | Sum.inl r => some r
    | Sum.inr st2 => pollRun env cfg fuel (t + 1) st2

/-- wait_for_output_completion: run the loop from tick zero on the
initial state. -/
def wait_for_output_completion (env : Env) (cfg : PollConfig) (pre : Option (List Char))
    (fuel : Nat) : Option (List Char × Bool × Bool) :=
  pollRun env cfg fuel 0 (initState env cfg pre)

/-- The state reached after a number of further iterations that all
stay in the loop; none when the loop returned within that many steps. -/
def pollStateAfter (env : Env) (cfg : PollConfig) : Nat → Nat → PollState → Option PollState
  | 0, _, st => some st
  | n + 1, t, st =>
    match pollStep env cfg t st with
    | Sum.inl _ => none
    | Sum.inr st2 => pollStateAfter env cfg n (t + 1) st2

/-! ## Lemmas about the sanitizer -/

lemma tryMatchEscape_suffix {t r : List Char} (h : tryMatchEscape t = some r) : r <:+ t := by
  cases t with
  | nil => simp [tryMatchEscape] at h
  | cons d t2 =>
    by_cases hd : isIntroByte d
    · rw [tryMatchEscape, if_pos hd] at h
      cases hm : (t2.dropWhile isParamByte).dropWhile isInterByte with
      | nil => rw [hm] at h; simp at h
      | cons f r2 =>
        rw [hm] at h
        by_cases hf : isFinalByte f
        · simp only [hf, if_true] at h
          have hr : r2 = r := by injection h
          subst hr
          have h1 : f :: r2 <:+ t2 := by
            rw [← hm]
            exact (List.dropWhile_suffix isInterByte).trans (List.dropWhile_suffix isParamByte)
          exact ((List.suffix_cons f r2).trans h1).trans (List.suffix_cons d t2)
        · simp [hf] at h
    · rw [tryMatchEscape, if_neg hd] at h; exact absurd h (by simp)

lemma tryMatchEscape_length {t r : List Char} (h : tryMatchEscape t = some r) :
    r.length ≤ t.length :=
  (tryMatchEscape_suffix h).length_le

lemma stripAux_nil (fuel : Nat) : stripAux fuel [] = [] := by
  cases fuel <;> rfl

lemma stripAux_fuel : ∀ (f1 : Nat) (s : List Char) (f2 : Nat),
    s.length ≤ f1 → s.length ≤ f2 → stripAux f1 s = stripAux f2 s := by
  intro f1
  induction f1 with
  | zero =>
    intro s f2 h1 _
    have hs : s = [] := List.length_eq_zero.mp (Nat.le_zero.mp h1)
    subst hs
    rw [stripAux_nil, stripAux_nil]
  | succ f1 ih =>
    intro s f2 h1 h2
    cases s with
    | nil => rw [stripAux_nil, stripAux_nil]
    | cons c rest =>
      have hr1 : rest.length ≤ f1 := by
        simpa [Nat.succ_le_succ_iff] using h1
      cases f2 with
      | zero => simp at h2
      | succ f2 =>
        have hr2 : rest.length ≤ f2 := by
          simpa [Nat.succ_le_succ_iff] using h2
        by_cases hc : c = escChar
        · cases hm : tryMatchEscape rest with
          | none => simp only [stripAux, if_pos hc, hm]; rw [ih rest f2 hr1 hr2]
          | some rest2 =>
            simp only [stripAux, if_pos hc, hm]
            exact ih rest2 f2 ((tryMatchEscape_length hm).trans hr1)
              ((tryMatchEscape_length hm).trans hr2)
        · simp only [stripAux, if_neg hc]; rw [ih rest f2 hr1 hr2]

lemma strip_nil : strip_ansi_escape_sequences [] = [] := rfl

lemma strip_cons_noesc {c : Char} (s : List Char) (h : c ≠ escChar) :
    strip_ansi_escape_sequences (c :: s) = c :: strip_ansi_escape_sequences s := by
  simp only [strip_ansi_escape_sequences, List.length_cons, stripAux, if_neg h]

lemma strip_esc_cons_some {b b2 : List Char} (h : tryMatchEscape b = some b2) :
    strip_ansi_escape_sequences (escChar :: b) = strip_ansi_escape_sequences b2 := by
  simp only [strip_ansi_escape_sequences, List.length_cons, stripAux, if_pos rfl, h]
  exact stripAux_fuel b.length b2 b2.length (tryMatchEscape_length h) le_rfl

lemma strip_esc_cons_none {b : List Char} (h : tryMatchEscape b = none) :
    strip_ansi_escape_sequences (escChar :: b) = escChar :: strip_ansi_escape_sequences b := by
  simp only [strip_ansi_escape_sequences, List.length_cons, stripAux, if_pos rfl, h]
  split <;> rfl

lemma strip_noesc {s : List Char} (h : escChar ∉ s) : strip_ansi_escape_sequences s = s := by
  induction s with
  | nil => rfl
  | cons c rest ih =>
    have hc : c ≠ escChar := fun he => h (he ▸ List.mem_cons_self c rest)
    rw [strip_cons_noesc rest hc, ih (fun hm => h (List.mem_cons_of_mem c hm))]

lemma strip_append_noesc {a : List Char} (t : List Char) (h : escChar ∉ a) :
    strip_ansi_escape_sequences (a ++ t) = a ++ strip_ansi_escape_sequences t := by
  induction a with
  | nil => rfl
  | cons c a2 ih =>
    have hc : c ≠ escChar := fun he => h (he ▸ List.mem_cons_self c a2)
    rw [List.cons_append, strip_cons_noesc (a2 ++ t) hc,
      ih (fun hm => h (List.mem_cons_of_mem c hm)), List.cons_append]

lemma exists_first_mem {c : Char} {s : List Char} (h : c ∈ s) :
    ∃ a b, s = a ++ c :: b ∧ c ∉ a := by
  induction s with
  | nil => exact absurd h (List.not_mem_nil c)
  | cons d s2 ih =>
    by_cases hd : d = c
    · exact ⟨[], s2, by rw [hd]; rfl, List.not_mem_nil c⟩
    · have hm : c ∈ s2 := by
        cases List.mem_cons.mp h with
        | inl he => exact absurd he.symm hd
        | inr hm => exact hm
      obtain ⟨a, b, heq, ha⟩ := ih hm
      exact ⟨d :: a, b, by rw [heq]; rfl, by
        intro hmem
        cases List.mem_cons.mp hmem with
        | inl he => exact hd he.symm
        | inr hm2 => exact ha hm2⟩

/-- C4 counterexample: on the input 0x1B 0x1B [ m [ m, one pass of the
sanitizer removes the inner escape sequence and glues the leading 0x1B
to the leftover bracket-m, so the result still holds an
escape-introducer byte and a second pass removes it: the sanitizer is
neither idempotent nor introducer-free at this input, refuting the
claim as stated. -/
theorem strip_ansi_not_idempotent :
    ¬(strip_ansi_escape_sequences
        (strip_ansi_escape_sequences [escChar, escChar, '[', 'm', '[', 'm']) =
      strip_ansi_escape_sequences [escChar, escChar, '[', 'm', '[', 'm'] ∧
      escChar ∉ strip_ansi_escape_sequences [escChar, escChar, '[', 'm', '[', 'm']) := by
  decide

/-- C4 (amended): the sanitizer maps an input without the introducer
byte to itself, so such results hold no introducer byte, and it is
idempotent on every input holding at most one introducer byte; full
idempotence and an introducer-free result fail in general because one
substitution pass never rescans the text it has already produced. -/
theorem strip_ansi_amended (s : List Char) :
    (escChar ∉ s →
      strip_ansi_escape_sequences s = s ∧ escChar ∉ strip_ansi_escape_sequences s) ∧
    (s.count escChar ≤ 1 →
      strip_ansi_escape_sequences (strip_ansi_escape_sequences s) =
        strip_ansi_escape_sequences s) := by
  constructor
  · intro h
    exact ⟨strip_noesc h, (strip_noesc h).symm ▸ h⟩
  · intro hc
    by_cases he : escChar ∈ s
    · obtain ⟨a, b, heq, ha⟩ := exists_first_mem he
      subst heq
      have hb : escChar ∉ b := by
        have hca : (a ++ escChar :: b).count escChar = a.count escChar + (b.count escChar + 1) := by
          simp [List.count_append]
        rw [hca] at hc
        have hb0 : b.count escChar = 0 := by omega
        exact List.count_eq_zero.mp hb0
      rw [strip_append_noesc (escChar :: b) ha]
      cases hm : tryMatchEscape b with
      | none =>
        rw [strip_esc_cons_none hm, strip_noesc hb, strip_append_noesc (escChar :: b) ha,
          strip_esc_cons_none hm, strip_noesc hb]
      | some b2 =>
        have hb2 : escChar ∉ b2 := fun hx => hb ((tryMatchEscape_suffix hm).subset hx)
        rw [strip_esc_cons_some hm, strip_noesc hb2]
        have : escChar ∉ a ++ b2 := by
          intro hx
          cases List.mem_append.mp hx with
          | inl h1 => exact ha h1
          | inr h2 => exact hb2 h2
        exact strip_noesc this
    · rw [strip_noesc he, strip_noesc he]

/-- Witness for the amended C4 theorem at concrete inputs: a text with
no introducer byte is fixed by the sanitizer, and a text with a single
introducer byte is sanitized idempotently. -/
theorem strip_ansi_amended_witness :
    strip_ansi_escape_sequences (("ab").toList) = ("ab").toList ∧
    strip_ansi_escape_sequences
        (strip_ansi_escape_sequences ['a', escChar, '[', 'm', 'b']) =
      strip_ansi_escape_sequences ['a', escChar, '[', 'm', 'b'] :=
  ⟨((strip_ansi_amended (("ab").toList)).1 (by decide)).1,
   (strip_ansi_amended ['a', escChar, '[', 'm', 'b']).2 (by decide)⟩

/-! ## Lemmas about line splitting, joining and the trim scan -/

lemma splitLines_ne_nil (s : List Char) : splitLines s ≠ [] := by
  cases s with
  | nil => simp [splitLines]
  | cons c rest =>
    simp only [splitLines]
    split
    · simp
    · split <;> simp

lemma joinLines_splitLines (s : List Char) : joinLines (splitLines s) = s := by
  induction s with
  | nil => rfl
  | cons c rest ih =>
    by_cases hc : c = '\n'
    · subst hc
      simp only [splitLines, if_pos rfl]
      cases hsp : splitLines rest with
      | nil => exact absurd hsp (splitLines_ne_nil rest)
      | cons l ls =>
        rw [hsp] at ih
        show joinLines ([] :: l :: ls) = '\n' :: rest
        rw [show joinLines ([] :: l :: ls) = [] ++ '\n' :: joinLines (l :: ls) from rfl, ih]
        rfl
    · simp only [splitLines, if_neg hc]
      cases hsp : splitLines rest with
      | nil => exact absurd hsp (splitLines_ne_nil rest)
      | cons l ls =>
        rw [hsp] at ih
        cases ls with
        | nil =>
          show c :: l = c :: rest
          rw [show joinLines [l] = l from rfl] at ih
          rw [ih]
        | cons l2 ls2 =>
          show (c :: l) ++ '\n' :: joinLines (l2 :: ls2) = c :: rest
          rw [show joinLines (l :: l2 :: ls2) = l ++ '\n' :: joinLines (l2 :: ls2) from rfl] at ih
          rw [← ih]
          rfl

lemma containsSub_nil (cmd : List Char) : containsSub cmd [] = cmd.isEmpty := rfl

lemma trim_some_eq (output c : List Char) :
    _trim_output_to_command output (some c) =
      if c.isEmpty || output.isEmpty then output
      else
        match trimScan c (splitLines output) with
        | some seg => joinLines seg
        | none => output := rfl

lemma containsSub_nil_false {cmd : List Char} (h : cmd ≠ []) : containsSub cmd [] = false := by
  rw [containsSub_nil]
  exact List.isEmpty_eq_false.mpr h

lemma trimScan_eq_none {cmd : List Char} :
    ∀ {ls : List (List Char)}, trimScan cmd ls = none ↔ ∀ l ∈ ls, containsSub cmd l = false := by
  intro ls
  induction ls with
  | nil => simp [trimScan]
  | cons l ls2 ih =>
    simp only [trimScan]
    constructor
    · intro h
      cases hr : trimScan cmd ls2 with
      | some r => rw [hr] at h; simp at h
      | none =>
        rw [hr] at h
        by_cases hl : containsSub cmd l
        · rw [if_pos hl] at h; simp at h
        · intro x hx
          cases List.mem_cons.mp hx with
          | inl he => rw [he]; exact Bool.eq_false_iff.mpr hl
          | inr hm => exact (ih.mp hr) x hm
    · intro h
      have hr : trimScan cmd ls2 = none := ih.mpr (fun x hx => h x (List.mem_cons_of_mem l hx))
      rw [hr, if_neg]
      rw [h l (List.mem_cons_self l ls2)]
      simp

lemma trimScan_last {cmd : List Char} :
    ∀ (ls : List (List Char)) (k : Nat), k < ls.length →
      containsSub cmd (ls.getD k []) = true →
      (∀ j, j < ls.length → k < j → containsSub cmd (ls.getD j []) = false) →
      trimScan cmd ls = some (ls.drop k) := by
  intro ls
  induction ls with
  | nil => intro k hk; simp at hk
  | cons l ls2 ih =>
    intro k hk hhit hlast
    cases k with
    | zero =>
      have hnone : trimScan cmd ls2 = none := by
        apply trimScan_eq_none.mpr
        intro x hx
        obtain ⟨j, hj, hxe⟩ := List.mem_iff_getElem.mp hx
        have := hlast (j + 1) (by simpa using Nat.succ_lt_succ hj) (Nat.succ_pos j)
        rw [List.getD_cons_succ] at this
        rw [← hxe]
        rw [List.getD_eq_getElem ls2 [] hj] at this
        exact this
      simp only [trimScan, hnone]
      rw [List.getD_cons_zero] at hhit
      rw [if_pos hhit]
      rfl
    | succ k2 =>
      have hk2 : k2 < ls2.length := by simpa using Nat.lt_of_succ_lt_succ hk
      have hrec : trimScan cmd ls2 = some (ls2.drop k2) := by
        apply ih k2 hk2
        · simpa using hhit
        · intro j hj hkj
          have := hlast (j + 1) (by simpa using Nat.succ_lt_succ hj) (Nat.succ_lt_succ hkj)
          rw [List.getD_cons_succ] at this
          exact this
      simp only [trimScan, hrec]
      rfl

lemma trimScan_some {cmd : List Char} :
    ∀ {ls seg : List (List Char)}, trimScan cmd ls = some seg →
      ∃ l rest, seg = l :: rest ∧ containsSub cmd l = true ∧ seg <:+ ls := by
  intro ls
  induction ls with
  | nil => intro seg h; simp [trimScan] at h
  | cons l ls2 ih =>
    intro seg h
    simp only [trimScan] at h
    cases hr : trimScan cmd ls2 with
    | some r =>
      rw [hr] at h
      have hs : r = seg := by injection h
      subst hs
      obtain ⟨x, rest, he, hc, hsuf⟩ := ih hr
      exact ⟨x, rest, he, hc, hsuf.trans (List.suffix_cons l ls2)⟩
    | none =>
      rw [hr] at h
      by_cases hl : containsSub cmd l
      · rw [if_pos hl] at h
        have hs : l :: ls2 = seg := by injection h
        subst hs
        exact ⟨l, ls2, rfl, hl, List.suffix_rfl⟩
      · rw [if_neg hl] at h; simp at h

lemma joinLines_cons_ne_nil {l : List Char} (rest : List (List Char)) (h : l ≠ []) :
    joinLines (l :: rest) ≠ [] := by
  cases rest with
  | nil => exact h
  | cons l2 ls2 =>
    show l ++ '\n' :: joinLines (l2 :: ls2) ≠ []
    simp

lemma joinLines_suffix_step (l : List Char) (ls : List (List Char)) :
    joinLines ls <:+ joinLines (l :: ls) := by
  cases ls with
  | nil => exact List.nil_suffix
  | cons l2 ls2 =>
    exact ⟨l ++ ['\n'], by simp [joinLines]⟩

lemma joinLines_drop_suffix : ∀ (ls : List (List Char)) (k : Nat),
    joinLines (ls.drop k) <:+ joinLines ls := by
  intro ls
  induction ls with
  | nil => intro k; simp
  | cons l ls2 ih =>
    intro k
    cases k with
    | zero => exact List.suffix_rfl
    | succ k2 =>
      rw [List.drop_succ_cons]
      exact (ih k2).trans (joinLines_suffix_step l ls2)

/-- C3: when the sent text occurs in the output at a set of line
indices, the trim returns the newline join of the lines from the last
such index onward — the last occurrence wins.  The hypothesis names the
last index k: the line at k contains the text and no later line does. -/
theorem trim_output_last_occurrence (output cmd : List Char) (k : Nat)
    (hcmd : cmd ≠ [])
    (hk : k < (splitLines output).length)
    (hhit : containsSub cmd ((splitLines output).getD k []) = true)
    (hlast : ∀ j, j < (splitLines output).length → k < j →
      containsSub cmd ((splitLines output).getD j []) = false) :
    _trim_output_to_command output (some cmd) = joinLines ((splitLines output).drop k) := by
  have hout : output ≠ [] := by
    intro he
    subst he
    have hk1 : k = 0 := by
      simpa [splitLines] using hk
    subst hk1
    rw [show (splitLines []).getD 0 [] = [] from rfl] at hhit
    rw [containsSub_nil_false hcmd] at hhit
    exact absurd hhit (by simp)
  rw [trim_some_eq, if_neg (by simp [hcmd, hout]),
    trimScan_last (splitLines output) k hk hhit hlast]

/-- Witness for C3: the output a, foo cmd, b, cmd x, y (one line each)
with sent text cmd is trimmed to the join of the lines from index 3,
the last line containing the text. -/
theorem trim_output_last_occurrence_witness :
    _trim_output_to_command (("a\nfoo cmd\nb\ncmd x\ny").toList) (some (("cmd").toList)) =
      joinLines ((splitLines (("a\nfoo cmd\nb\ncmd x\ny").toList)).drop 3) :=
  trim_output_last_occurrence (("a\nfoo cmd\nb\ncmd x\ny").toList) (("cmd").toList) 3
    (by decide) (by decide) (by decide) (by decide)

/-- C8: trimming with an absent command returns the output unchanged,
and trimming with a non-empty command contained in no line of the
output also returns the output unchanged, never the empty string. -/
theorem trim_output_absent_command (output cmd : List Char) :
    _trim_output_to_command output none = output ∧
    (cmd ≠ [] → (∀ l ∈ splitLines output, containsSub cmd l = false) →
      _trim_output_to_command output (some cmd) = output) := by
  refine ⟨rfl, ?_⟩
  intro hcmd hnone
  rw [trim_some_eq]
  by_cases hout : output.isEmpty
  · rw [if_pos (by simp [hout])]
  · rw [if_neg (by simp [hcmd, Bool.eq_false_iff.mpr hout]), trimScan_eq_none.mpr hnone]

/-- Witness for C8: an output whose lines never contain the sent text
zz is returned unchanged. -/
theorem trim_output_absent_command_witness :
    _trim_output_to_command (("a\nb").toList) none = ("a\nb").toList ∧
    _trim_output_to_command (("a\nb").toList) (some (("zz").toList)) = ("a\nb").toList :=
  ⟨(trim_output_absent_command (("a\nb").toList) (("zz").toList)).1,
   (trim_output_absent_command (("a\nb").toList) (("zz").toList)).2 (by decide) (by decide)⟩

/-- C10: for every output and optional command the trim result is the
newline join of a trailing segment of the lines of the output, hence a
suffix of the output starting at a line boundary, and it is non-empty
whenever the output is non-empty. -/
theorem trim_output_suffix (output : List Char) (cmd : Option (List Char)) :
    (∃ k, _trim_output_to_command output cmd = joinLines ((splitLines output).drop k)) ∧
    _trim_output_to_command output cmd <:+ output ∧
    (output ≠ [] → _trim_output_to_command output cmd ≠ []) := by
  have hid : ∀ h : _trim_output_to_command output cmd = output,
      (∃ k, _trim_output_to_command output cmd = joinLines ((splitLines output).drop k)) ∧
      _trim_output_to_command output cmd <:+ output ∧
      (output ≠ [] → _trim_output_to_command output cmd ≠ []) := by
    intro h
    rw [h]
    exact ⟨⟨0, by rw [List.drop_zero, joinLines_splitLines]⟩, List.suffix_rfl, fun hne => hne⟩
  cases cmd with
  | none => exact hid rfl
  | some c =>
    by_cases hg : c.isEmpty || output.isEmpty
    · exact hid (by rw [trim_some_eq, if_pos hg])
    · cases hscan : trimScan c (splitLines output) with
      | none => exact hid (by rw [trim_some_eq, if_neg hg, hscan])
      | some seg =>
        have heq : _trim_output_to_command output (some c) = joinLines seg := by
          rw [trim_some_eq, if_neg hg, hscan]
        obtain ⟨l, rest, hse, hcont, hsuf⟩ := trimScan_some hscan
        obtain ⟨pre, hpre⟩ := hsuf
        have hdrop : seg = (splitLines output).drop pre.length := by
          rw [← hpre, List.drop_left]
        refine ⟨⟨pre.length, by rw [heq, hdrop]⟩, ?_, ?_⟩
        · rw [heq, hdrop, ← joinLines_splitLines output]
          have := joinLines_drop_suffix (splitLines output) pre.length
          rw [joinLines_splitLines output] at this
          rw [joinLines_splitLines output]
          exact this
        · intro _
          rw [heq, hse]
          have hc : c ≠ [] := by
            intro he; subst he; simp at hg
          have hl : l ≠ [] := by
            intro he
            subst he
            rw [containsSub_nil_false hc] at hcont
            exact absurd hcont (by simp)
          exact joinLines_cons_ne_nil rest hl

/-- Witness for C10 at a concrete output: the trim of a two line
output by an absent command is itself a non-empty line suffix. -/
theorem trim_output_suffix_witness :
    _trim_output_to_command (("a\nb").toList) (some (("b").toList)) ≠ [] :=
  (trim_output_suffix (("a\nb").toList) (some (("b").toList))).2.2 (by decide)

/-! ## Lemmas about the polling loop -/

lemma pollStep_spec (env : Env) (cfg : PollConfig) (t : Nat) (st : PollState) :
    (env.elapsed t > cfg.max_wait_sec ∧
      pollStep env cfg t st =
        Sum.inl (_trim_output_to_command (env.capture t) cfg.command_sent, true, false)) ∨
    (env.elapsed t ≤ cfg.max_wait_sec ∧ env.session_alive t = false ∧
      pollStep env cfg t st =
        Sum.inl (_trim_output_to_command (env.capture t) cfg.command_sent, false, true)) ∨
    (env.elapsed t ≤ cfg.max_wait_sec ∧ env.session_alive t = true ∧
      (((updatedState st cfg (env.capture t)).output_changed ||
        (updatedState st cfg (env.capture t)).command_seen) &&
        !(_trim_output_to_command (env.capture t) cfg.command_sent).isEmpty) = true ∧
      promptCheckLine (_trim_output_to_command (env.capture t) cfg.command_sent) = true ∧
      pollStep env cfg t st =
        Sum.inl (_trim_output_to_command (env.capture t) cfg.command_sent, false, false)) ∨
    (pollStep env cfg t st = Sum.inr (updatedState st cfg (env.capture t))) := by
  by_cases h1 : env.elapsed t > cfg.max_wait_sec
  · exact Or.inl ⟨h1, by simp only [pollStep, if_pos h1]⟩
  · by_cases h2 : env.session_alive t = false
    · exact Or.inr (Or.inl ⟨Nat.le_of_not_lt h1, h2,
        by simp only [pollStep, if_neg h1, if_pos h2]⟩)
    · have h2t : env.session_alive t = true := by
        cases hb : env.session_alive t
        · exact absurd hb h2
        · rfl
      by_cases h3 : (((updatedState st cfg (env.capture t)).output_changed ||
          (updatedState st cfg (env.capture t)).command_seen) &&
          !(_trim_output_to_command (env.capture t) cfg.command_sent).isEmpty) = true
      · by_cases h4 : promptCheckLine (_trim_output_to_command (env.capture t)
            cfg.command_sent) = true
        · exact Or.inr (Or.inr (Or.inl ⟨Nat.le_of_not_lt h1, h2t, h3, h4,
            by simp only [pollStep, if_neg h1, if_neg h2, if_pos h3, if_pos h4]⟩))
        · exact Or.inr (Or.inr (Or.inr
            (by simp only [pollStep, if_neg h1, if_neg h2, if_pos h3, if_neg h4])))
      · exact Or.inr (Or.inr (Or.inr
          (by simp only [pollStep, if_neg h1, if_neg h2, if_neg h3])))

lemma pollStep_inr_eq {env : Env} {cfg : PollConfig} {t : Nat} {st st2 : PollState}
    (h : pollStep env cfg t st = Sum.inr st2) :
    st2 = updatedState st cfg (env.capture t) := by
  rcases pollStep_spec env cfg t st with h1 | h2 | h3 | h4
  · exact absurd (h1.2.symm.trans h) (by simp)
  · exact absurd (h2.2.2.symm.trans h) (by simp)
  · exact absurd (h3.2.2.2.2.symm.trans h) (by simp)
  · have h5 := h4.symm.trans h
    injection h5 with h5
    exact h5.symm

lemma updatedState_mono (st : PollState) (cfg : PollConfig) (cur : List Char) :
    (st.output_changed = true → (updatedState st cfg cur).output_changed = true) ∧
    (st.command_seen = true → (updatedState st cfg cur).command_seen = true) := by
  unfold updatedState
  by_cases hc : cur = st.last_output
  · rw [if_pos hc]
    exact ⟨fun h => h, fun h => by simp [h]⟩
  · rw [if_neg hc]
    exact ⟨fun _ => rfl, fun h => by simp [h]⟩

lemma pollStep_flags {env : Env} {cfg : PollConfig} {t : Nat} {st : PollState}
    {o : List Char} {b1 b2 : Bool}
    (h : pollStep env cfg t st = Sum.inl (o, b1, b2)) : b1 = false ∨ b2 = false := by
  rcases pollStep_spec env cfg t st with h1 | h2 | h3 | h4
  · have h5 := h1.2.symm.trans h
    simp only [Sum.inl.injEq, Prod.mk.injEq] at h5
    exact Or.inr h5.2.2.symm
  · have h5 := h2.2.2.symm.trans h
    simp only [Sum.inl.injEq, Prod.mk.injEq] at h5
    exact Or.inl h5.2.1.symm
  · have h5 := h3.2.2.2.2.symm.trans h
    simp only [Sum.inl.injEq, Prod.mk.injEq] at h5
    exact Or.inl h5.2.1.symm
  · exact absurd (h4.symm.trans h) (by simp)

lemma pollRun_flags (env : Env) (cfg : PollConfig) :
    ∀ (fuel t : Nat) (st : PollState) (o : List Char) (b1 b2 : Bool),
      pollRun env cfg fuel t st = some (o, b1, b2) → b1 = false ∨ b2 = false := by
  intro fuel
  induction fuel with
  | zero => intro t st o b1 b2 h; simp [pollRun] at h
  | succ fuel ih =>
    intro t st o b1 b2 h
    simp only [pollRun] at h
    cases hs : pollStep env cfg t st with
    | inl r =>
      rw [hs] at h
      have hr : r = (o, b1, b2) := by injection h
      exact pollStep_flags (hr ▸ hs)
    | inr st2 =>
      rw [hs] at h
      exact ih (t + 1) st2 o b1 b2 h

/-- C1: the timeout check comes first in every iteration: whenever the
elapsed time at a tick exceeds the deadline, the step returns the
timed-out triple, whatever the liveness answer and whatever the pane
shows at that tick. -/
theorem poll_timeout_priority (env : Env) (cfg : PollConfig) (t : Nat) (st : PollState)
    (h : env.elapsed t > cfg.max_wait_sec) :
    pollStep env cfg t st =
      Sum.inl (_trim_output_to_command (env.capture t) cfg.command_sent, true, false) := by
  simp only [pollStep, if_pos h]

/-- Witness for C1 at a tick where the session no longer exists: the
step still reports a timeout, not a session exit. -/
theorem poll_timeout_priority_witness :
    pollStep ⟨fun _ => 21, fun _ => false, fun _ => ("ok").toList, []⟩ ⟨none, 20⟩ 0
      ⟨[], false, false⟩ =
      Sum.inl (_trim_output_to_command (("ok").toList) none, true, false) :=
  poll_timeout_priority ⟨fun _ => 21, fun _ => false, fun _ => ("ok").toList, []⟩
    ⟨none, 20⟩ 0 ⟨[], false, false⟩ (by decide)

lemma pollRun_stale (env : Env) (cmd p : List Char) (mw : Nat)
    (hnc : containsSub cmd p = false) (hcap : ∀ t, env.capture t = p) :
    ∀ (fuel t : Nat) (r : List Char × Bool × Bool),
      pollRun env ⟨some cmd, mw⟩ fuel t ⟨p, false, false⟩ = some r →
      r.2.1 = true ∨ r.2.2 = true := by
  have hupd : ∀ t, updatedState ⟨p, false, false⟩ ⟨some cmd, mw⟩ (env.capture t) =
      ⟨p, false, false⟩ := by
    intro t
    rw [hcap t]
    simp [updatedState, cmdVisible, hnc]
  intro fuel
  induction fuel with
  | zero => intro t r h; simp [pollRun] at h
  | succ fuel ih =>
    intro t r h
    simp only [pollRun] at h
    rcases pollStep_spec env ⟨some cmd, mw⟩ t ⟨p, false, false⟩ with h1 | h2 | h3 | h4
    · rw [h1.2] at h
      have hr : (_trim_output_to_command (env.capture t) (some cmd), true, false) = r := by
        injection h
      exact Or.inl (by rw [← hr])
    · rw [h2.2.2] at h
      have hr : (_trim_output_to_command (env.capture t) (some cmd), false, true) = r := by
        injection h
      exact Or.inr (by rw [← hr])
    · exfalso
      have hcond := h3.2.2.1
      rw [hupd t] at hcond
      simp at hcond
    · rw [h4, hupd t] at h
      exact ih (t + 1) r h

/-- C2: the prompt check is gated: a step can return the completed
triple only when, after the latch updates of that tick, outputChanged
or commandSeen holds and the trimmed capture is non-empty; and a whole
poll whose captures all equal the supplied pre-command baseline, with
the sent text contained in no capture, never reports completion —
every terminating run reports a timeout or a session exit. -/
theorem poll_prompt_gate :
    (∀ (env : Env) (cfg : PollConfig) (t : Nat) (st : PollState) (o : List Char),
      pollStep env cfg t st = Sum.inl (o, false, false) →
      (((updatedState st cfg (env.capture t)).output_changed ||
        (updatedState st cfg (env.capture t)).command_seen) &&
        !(_trim_output_to_command (env.capture t) cfg.command_sent).isEmpty) = true) ∧
    (∀ (env : Env) (cmd p : List Char) (mw fuel : Nat) (r : List Char × Bool × Bool),
      containsSub cmd p = false → (∀ t, env.capture t = p) →
      wait_for_output_completion env ⟨some cmd, mw⟩ (some p) fuel = some r →
      r.2.1 = true ∨ r.2.2 = true) := by
  constructor
  · intro env cfg t st o h
    rcases pollStep_spec env cfg t st with h1 | h2 | h3 | h4
    · have h5 := h1.2.symm.trans h
      simp only [Sum.inl.injEq, Prod.mk.injEq] at h5
      exact absurd h5.2.1 (by simp)
    · have h5 := h2.2.2.symm.trans h
      simp only [Sum.inl.injEq, Prod.mk.injEq] at h5
      exact absurd h5.2.2 (by simp)
    · exact h3.2.2.1
    · exact absurd (h4.symm.trans h) (by simp)
  · intro env cmd p mw fuel r hnc hcap h
    have hinit : initState env ⟨some cmd, mw⟩ (some p) = ⟨p, false, false⟩ := by
      simp [initState, cmdVisible, hnc]
    rw [wait_for_output_completion, hinit] at h
    exact pollRun_stale env cmd p mw hnc hcap fuel 0 r h

/-- Witness for C2: a completing step satisfies the gate condition, and
a stale poll (captures frozen at the baseline, sent text never echoed)
over two ticks ends in a timeout triple, not a completed one. -/
theorem poll_prompt_gate_witness :
    (((updatedState ⟨[], true, false⟩ ⟨none, 20⟩ (("x$").toList)).output_changed ||
      (updatedState ⟨[], true, false⟩ ⟨none, 20⟩ (("x$").toList)).command_seen) &&
      !(_trim_output_to_command (("x$").toList) none).isEmpty) = true ∧
    (((("stale$").toList, true, false) : List Char × Bool × Bool).2.1 = true ∨
      ((("stale$").toList, true, false) : List Char × Bool × Bool).2.2 = true) :=
  ⟨poll_prompt_gate.1 ⟨fun _ => 0, fun _ => true, fun _ => ("x$").toList, []⟩ ⟨none, 20⟩ 0
      ⟨[], true, false⟩ (("x$").toList) (by decide),
   poll_prompt_gate.2 ⟨fun t => 21 * t, fun _ => true, fun _ => ("stale$").toList, []⟩
      (("x").toList) (("stale$").toList) 20 2 ((("stale$").toList, true, false))
      (by decide) (fun _ => rfl) (by decide)⟩

/-- C7: across any number of loop iterations that stay in the loop, the
two latches only ever move from false to true: a latch that is true in
the starting state is still true in the state at any later tick. -/
theorem poll_latches_monotone :
    ∀ (env : Env) (cfg : PollConfig) (n t : Nat) (st st2 : PollState),
      pollStateAfter env cfg n t st = some st2 →
      (st.output_changed = true → st2.output_changed = true) ∧
      (st.command_seen = true → st2.command_seen = true) := by
  intro env cfg n
  induction n with
  | zero =>
    intro t st st2 h
    simp only [pollStateAfter, Option.some.injEq] at h
    subst h
    exact ⟨fun h => h, fun h => h⟩
  | succ n ih =>
    intro t st st2 h
    simp only [pollStateAfter] at h
    cases hs : pollStep env cfg t st with
    | inl r => rw [hs] at h; simp at h
    | inr st3 =>
      rw [hs] at h
      have hst3 := pollStep_inr_eq hs
      have hm := updatedState_mono st cfg (env.capture t)
      have hrec := ih (t + 1) st3 st2 h
      exact ⟨fun ho => hrec.1 (by rw [hst3]; exact hm.1 ho),
             fun hc => hrec.2 (by rw [hst3]; exact hm.2 hc)⟩

/-- Witness for C7: one iteration that stays in the loop carries both
latches through as true. -/
theorem poll_latches_monotone_witness :
    (⟨("x").toList, true, true⟩ : PollState).output_changed = true ∧
    (⟨("x").toList, true, true⟩ : PollState).command_seen = true :=
  ⟨(poll_latches_monotone ⟨fun _ => 0, fun _ => true, fun _ => ("x").toList, []⟩ ⟨none, 20⟩
      1 0 ⟨("x").toList, true, true⟩ ⟨("x").toList, true, true⟩ (by decide)).1 rfl,
   (poll_latches_monotone ⟨fun _ => 0, fun _ => true, fun _ => ("x").toList, []⟩ ⟨none, 20⟩
      1 0 ⟨("x").toList, true, true⟩ ⟨("x").toList, true, true⟩ (by decide)).2 rfl⟩

/-- C9: the two boolean flags of any returned triple are mutually
exclusive: a terminating poll call never reports both timed out and
session exited, so the three outcomes — completed (both false), timed
out, session exited — are disjoint. -/
theorem wait_flags_exclusive (env : Env) (cfg : PollConfig) (pre : Option (List Char))
    (fuel : Nat) (o : List Char) (b1 b2 : Bool)
    (h : wait_for_output_completion env cfg pre fuel = some (o, b1, b2)) :
    b1 = false ∨ b2 = false :=
  pollRun_flags env cfg fuel 0 (initState env cfg pre) o b1 b2 h

/-- Witness for C9 on a completing poll: its two flags are not both
true. -/
theorem wait_flags_exclusive_witness : (false = false) ∨ (false = false) :=
  wait_flags_exclusive ⟨fun _ => 0, fun _ => true, fun _ => ("x$").toList, []⟩ ⟨none, 20⟩
    none 1 (("x$").toList) false false (by decide)

/-- C5 counterexample: the claim says the tested line is the last line
of the trimmed capture, stripped of trailing whitespace.  On the
capture ok$ newline space newline, that line is blank and matches no
pattern, yet the step returns the completed triple, because the code
first strips the whole trimmed capture at both ends and only then takes
the last line. -/
theorem prompt_spec_pipeline_counterexample :
    pollStep ⟨fun _ => 0, fun _ => true, fun _ => ("ok$\n \n").toList, []⟩ ⟨none, 20⟩ 0
        ⟨[], true, false⟩ =
      Sum.inl (("ok$\n \n").toList, false, false) ∧
    firstPromptMatch (strip_ansi_escape_sequences
      (specLastLineTested (("ok$\n \n").toList))) = none := by
  decide

/-- C5 (amended): when a prompt check is performed the trimmed capture
is first stripped of whitespace at both ends, then its last line is
taken, stripped again and sanitized, and tested against the prompt
patterns in the fixed priority order pry(main)>, bracket-dollar,
bracket-hash, hash, dollar; a last line ending in pry(main) arrow space
classifies as completed, and a line ending in a bare arrow matches no
pattern.  The step returns the completed triple exactly when this
pipeline finds a matching pattern. -/
theorem prompt_priority_pipeline :
    prompt_patterns = [("pry(main)>").toList, ("]$").toList, ("]#").toList,
      ("#").toList, ("$").toList] ∧
    (∀ (env : Env) (cfg : PollConfig) (t : Nat) (st : PollState),
      env.elapsed t ≤ cfg.max_wait_sec → env.session_alive t = true →
      (((updatedState st cfg (env.capture t)).output_changed ||
        (updatedState st cfg (env.capture t)).command_seen) &&
        !(_trim_output_to_command (env.capture t) cfg.command_sent).isEmpty) = true →
      (pollStep env cfg t st =
        Sum.inl (_trim_output_to_command (env.capture t) cfg.command_sent, false, false) ↔
        (firstPromptMatch (strip_ansi_escape_sequences
          (lastLine (_trim_output_to_command (env.capture t) cfg.command_sent)))).isSome =
          true)) ∧
    firstPromptMatch (strip_ansi_escape_sequences (lastLine (("pry(main)> ").toList))) =
      some (("pry(main)>").toList) ∧
    firstPromptMatch (strip_ansi_escape_sequences (lastLine (("node>").toList))) = none := by
  refine ⟨rfl, ?_, by decide, by decide⟩
  intro env cfg t st h1 h2 h3
  have h1n : ¬(env.elapsed t > cfg.max_wait_sec) := Nat.not_lt.mpr h1
  have h2n : ¬(env.session_alive t = false) := by simp [h2]
  constructor
  · intro h
    by_cases hp : promptCheckLine
        (_trim_output_to_command (env.capture t) cfg.command_sent) = true
    · exact hp
    · rw [pollStep, if_neg h1n, if_neg h2n, if_pos h3, if_neg hp] at h
      exact absurd h (by simp)
  · intro h
    have hp : promptCheckLine
        (_trim_output_to_command (env.capture t) cfg.command_sent) = true := h
    rw [pollStep, if_neg h1n, if_neg h2n, if_pos h3, if_pos hp]

/-- Witness for the amended C5 theorem: a step over a capture whose
last line is the dollar prompt completes, and the equivalence reduces
the outcome to the pipeline match. -/
theorem prompt_priority_pipeline_witness :
    pollStep ⟨fun _ => 0, fun _ => true, fun _ => ("x$").toList, []⟩ ⟨none, 20⟩ 0
        ⟨[], true, false⟩ =
      Sum.inl (_trim_output_to_command (("x$").toList) none, false, false) :=
  (prompt_priority_pipeline.2.1 ⟨fun _ => 0, fun _ => true, fun _ => ("x$").toList, []⟩
    ⟨none, 20⟩ 0 ⟨[], true, false⟩ (by decide) rfl (by decide)).mpr (by decide)

/-- C6: the capture helper is total over the outcomes of the external
invocation, but a failed invocation (non-zero return code) does not
degrade to the empty string: its standard output is returned unchanged,
because the invocation is run without return-code checking, so the
handler for a CalledProcessError can never fire; only the timeout case
yields the empty string. -/
theorem capture_failure_stdout :
    capture_tmux_output (CaptureInvocation.completed (("oops").toList) 1) = ("oops").toList ∧
    ("oops").toList ≠ ([] : List Char) ∧
    capture_tmux_output CaptureInvocation.timedOut = [] := by
  decide

end TmuxWrapper
